import Mathlib

/-!
Verification of the FloxAI retrieval pipeline
(`backend/app/services/{embedding_service,document_processor,vector_rag_service,rag_service}.py`).

Text is modelled as `List Char` (Python `str` over its code points); Python
floats are idealised as `ℚ`; the ChromaDB collection and the embedding model
are abstracted as an oracle returning raw `(document, metadata, distance)`
rows, since both are external to the repository.  Every definition follows
the Python source line by line; the regular-expression substitutions of
`_clean_text` are implemented as explicit leftmost-match scanners with the
same semantics as CPython `re.sub` on the strings that can reach them.
-/

namespace Floxai

/-- Python `\s` / `str.strip()` whitespace, ASCII range
(the corpus processed by the service is ASCII markdown). -/
def pyWs (c : Char) : Bool :=
  c = ' ' || c = '\t' || c = '\n' || c = '\r' || c = '\x0b' || c = '\x0c'

/-- One sentence-terminator character of the split `re.split(r'[.!?]+', text)`. -/
def isPunct (c : Char) : Bool :=
  c = '.' || c = '!' || c = '?'

/-- `re.sub(r'\s+', ' ', text)`: collapse every whitespace run to one space.
The `Bool` state records whether the previous character was whitespace. -/
def collapseWsAux : Bool → List Char → List Char
  | _, [] => []
  | prevWs, c :: rest =>
    if pyWs c then
      if prevWs then collapseWsAux true rest
      else ' ' :: collapseWsAux true rest
    else c :: collapseWsAux false rest

/-- `re.sub(r'\s+', ' ', text)`. -/
def collapseWs (l : List Char) : List Char :=
  collapseWsAux false l

/-- Remove trailing whitespace (right half of Python `str.strip()`). -/
def dropTrailWs (l : List Char) : List Char :=
  l.foldr (fun c acc => if pyWs c && decide (acc = []) then [] else c :: acc) []

/-- Python `str.strip()`. -/
def pyStrip (l : List Char) : List Char :=
  dropTrailWs (l.dropWhile pyWs)

/-- Python `str.lower()` (ASCII case mapping). -/
def pyLower (l : List Char) : List Char :=
  l.map Char.toLower

/-- Python `pat in s` substring test. -/
def containsSub (pat l : List Char) : Bool :=
  l.tails.any (fun t => pat.isPrefixOf t)

/-- Index of the earliest occurrence of `pat` as a prefix of a suffix of `l`. -/
def findSub (pat : List Char) : List Char → Option Nat
  | [] => if pat.isPrefixOf ([] : List Char) then some 0 else none
  | c :: rest =>
    if pat.isPrefixOf (c :: rest) then some 0
    else (findSub pat rest).map (· + 1)

/-- Leftmost-match scanning substitution, the common shape of `re.sub` and
`str.replace`: `matchAt` reports, for the text starting at the current
position, the number of characters consumed by a match there and the
replacement text.  On a match the scanner emits the replacement and resumes
after the consumed characters (replacements are not rescanned, as in
CPython); otherwise it keeps one character and advances.  Fuel is the length
of the scanned text. -/
def scanSubF (matchAt : List Char → Option (Nat × List Char)) :
    Nat → List Char → List Char
  | _, [] => []
  | 0, l => l
  | fuel + 1, c :: rest =>
    match matchAt (c :: rest) with
    | some (k, rep) =>
      if 1 ≤ k then rep ++ scanSubF matchAt fuel ((c :: rest).drop k)
      else c :: scanSubF matchAt fuel rest
    | none => c :: scanSubF matchAt fuel rest

/-- Leftmost-match scanning substitution over a whole text. -/
def scanSub (matchAt : List Char → Option (Nat × List Char)) (l : List Char) :
    List Char :=
  scanSubF matchAt l.length l

/-- `str.replace(pat, rep)` (all non-overlapping occurrences, left to right). -/
def replaceAll (pat rep : List Char) : List Char → List Char :=
  scanSub (fun l => if pat.isPrefixOf l && decide (pat ≠ []) then some (pat.length, rep) else none)

/-- Matcher of `re.sub(r'#{1,6}\s+', '', text)`: one to six `#` followed by a
whitespace run, replaced by nothing.  A run of more than six `#` cannot match
at its start (after six greedy `#` the mandatory `\s` fails and every
backtracked shorter prefix is followed by another `#`). -/
def matchHeader (l : List Char) : Option (Nat × List Char) :=
  let m := (l.takeWhile (fun c => c = '#')).length
  if 1 ≤ m && m ≤ 6 then
    let w := ((l.drop m).takeWhile pyWs).length
    if 1 ≤ w then some (m + w, []) else none
  else none

/-- Matcher of a lazy delimited group `open (.*?) close` replaced by the
group: the earliest closing delimiter wins, and Python `.` does not cross a
newline. -/
def matchDelim (opener closer : List Char) (l : List Char) : Option (Nat × List Char) :=
  if opener.isPrefixOf l then
    let rest := l.drop opener.length
    match findSub closer rest with
    | some i =>
      if (rest.take i).contains '\n' then none
      else some (opener.length + i + closer.length, rest.take i)
    | none => none
  else none

/-- Matcher of `re.sub(r'\[([^\]]+)\]\([^)]+\)', r'\1', text)` (markdown
links): the greedy negated classes stop at the first closing bracket. -/
def matchLink (l : List Char) : Option (Nat × List Char) :=
  match l with
  | c :: rest =>
    if c = '[' then
      let j := (rest.takeWhile (fun a => a ≠ ']')).length
      if 1 ≤ j && decide (rest.drop j ≠ []) then
        match rest.drop (j + 1) with
        | c2 :: rest2 =>
          if c2 = '(' then
            let k := (rest2.takeWhile (fun a => a ≠ ')')).length
            if 1 ≤ k && decide (rest2.drop k ≠ []) then
              some (1 + j + 1 + 1 + k + 1, rest.take j)
            else none
          else none
        | [] => none
      else none
    else none
  | [] => none

/-- `re.split(r'[.!?]+', text)`: split on maximal runs of sentence
terminators.  The `Bool` state records whether the previous character
belonged to a terminator run (so the run contributes a single boundary). -/
def splitPA : Bool → List Char → List Char → List (List Char)
  | _, [], cur => [cur.reverse]
  | inRun, c :: rest, cur =>
    if isPunct c then
      if inRun then splitPA true rest cur
      else cur.reverse :: splitPA true rest []
    else splitPA false rest (c :: cur)

/-- `re.split(r'[.!?]+', text)`. -/
def splitPunct (l : List Char) : List (List Char) :=
  splitPA false l []

/-- Python `text.split()` with no separator: whitespace-delimited words,
empty pieces discarded. -/
def pySplitAux : List Char → List Char → List (List Char)
  | [], cur => if cur = [] then [] else [cur.reverse]
  | c :: rest, cur =>
    if pyWs c then
      if cur = [] then pySplitAux rest []
      else cur.reverse :: pySplitAux rest []
    else pySplitAux rest (c :: cur)

/-- Python `text.split()` with no separator. -/
def pySplit (l : List Char) : List (List Char) :=
  pySplitAux l []

/-- Python `s[-k:]` for `k > 0`: the trailing `k` characters. -/
def takeLast (k : Nat) (l : List Char) : List Char :=
  l.drop (l.length - k)

/-- Decimal digits of a natural number, as rendered by Python string
formatting.  Fuel-based so that the kernel can evaluate it; `n + 1` units of
fuel always suffice. -/
def natDigitsAux : Nat → Nat → List Char → List Char
  | 0, _, acc => acc
  | fuel + 1, n, acc =>
    let d := Char.ofNat (48 + n % 10)
    if n < 10 then d :: acc else natDigitsAux fuel (n / 10) (d :: acc)

/-- Decimal rendering of a natural number (Python `f"{n}"`). -/
def natDigits (n : Nat) : List Char :=
  natDigitsAux (n + 1) n []

/-- `pathlib.Path.name`: the final path component. -/
def pathName (l : List Char) : List Char :=
  (l.reverse.takeWhile (fun c => c ≠ '/')).reverse

namespace FloxEmbeddingService

/-- `self.max_chunk_size` of `FloxEmbeddingService`. -/
def max_chunk_size : Nat := 500

/-- `self.chunk_overlap` of `FloxEmbeddingService`. -/
def chunk_overlap : Nat := 50

/-- `FloxEmbeddingService._clean_text`: whitespace collapse, HTML-entity
replacement, markdown stripping (headers, bold, italic, inline code, links),
then `strip()`; the empty text is returned unchanged. -/
def clean_text (t : List Char) : List Char :=
  if t = [] then []
  else
    let s1 := collapseWs t
    let s2 := replaceAll "&nbsp;".data " ".data s1
    let s3 := replaceAll "&amp;".data "&".data s2
    let s4 := replaceAll "&lt;".data "<".data s3
    let s5 := replaceAll "&gt;".data ">".data s4
    let s6 := replaceAll "&quot;".data "\"".data s5
    let s7 := scanSub matchHeader s6
    let s8 := scanSub (matchDelim ['*', '*'] ['*', '*']) s7
    let s9 := scanSub (matchDelim ['*'] ['*']) s8
    let s10 := scanSub (matchDelim [Char.ofNat 96] [Char.ofNat 96]) s9
    let s11 := scanSub matchLink s10
    pyStrip s11

/-- The sentence-accumulation loop of `FloxEmbeddingService.chunk_text`:
strip each sentence, skip blank ones; when appending the next sentence would
push the running chunk past `max_size`, close the running chunk and seed the
next one with its trailing `overlap` characters (empty when the closed chunk
is no longer than `overlap`) plus a space plus the sentence; afterwards emit
the final chunk if its stripped form is non-empty. -/
def chunk_text_loop (max_size overlap : Nat) :
    List (List Char) → List (List Char) → List Char → List (List Char)
  | [], chunks, current =>
    if pyStrip current ≠ [] then chunks ++ [pyStrip current] else chunks
  | s :: rest, chunks, current =>
    let sentence := pyStrip s
    if sentence = [] then chunk_text_loop max_size overlap rest chunks current
    else if max_size < current.length + sentence.length + 1 ∧ current ≠ [] then
      let overlap_text := if overlap < current.length then takeLast overlap current else []
      chunk_text_loop max_size overlap rest (chunks ++ [pyStrip current])
        (overlap_text ++ ' ' :: sentence)
    else
      chunk_text_loop max_size overlap rest chunks
        (if current = [] then sentence else current ++ ' ' :: sentence)

/-- `FloxEmbeddingService.chunk_text`: clean the text, split it into
sentences on `[.!?]+`, and greedily accumulate sentences into chunks of at
most `max_size` characters with `chunk_overlap` characters of overlap. -/
def chunk_text (text : List Char) (max_size : Nat := max_chunk_size) :
    List (List Char) :=
  chunk_text_loop max_size chunk_overlap (splitPunct (clean_text text)) [] []

/-- `FloxEmbeddingService.get_token_count`: the loaded tokenizer's token
count, falling back to the whitespace-split word count when no tokenizer is
loaded (`self.encoding` is `None`). -/
def get_token_count (encoding : Option (List Char → List Nat)) (text : List Char) : Nat :=
  match encoding with
  | none => (pySplit text).length
  | some enc => (enc text).length

end FloxEmbeddingService

/-- One retrieved passage as built by `FloxVectorRAGService.search`
(the dictionaries appended to `search_results`). -/
structure SearchResult where
  content : List Char
  source : List Char
  relevance_score : ℚ
  doc_type : List Char
  category : List Char
  title : List Char
  chunk_index : Nat
  total_chunks : Nat
deriving DecidableEq

/-- One raw row of a ChromaDB query answer: a document, its metadata (with
the `metadata.get(..., default)` defaults of `search` already applied), and
the reported cosine distance. -/
structure RawRow where
  document : List Char
  source_name : List Char
  doc_type : List Char
  category : List Char
  title : List Char
  chunk_index : Nat
  total_chunks : Nat
  distance : ℚ
deriving DecidableEq

namespace FloxVectorRAGService

/-- The state of a `FloxVectorRAGService`: the readiness flag and the
combined effect of `generate_embedding` plus `collection.query`, abstracted
as an oracle from (query text, `n_results`, where-filter) to rows; an
`error` outcome models an exception from either external call. -/
structure State where
  is_ready : Bool
  queryIndex : List Char → Nat → Option (List (List Char)) → Except Unit (List RawRow)

/-- The result-building step of `FloxVectorRAGService.search`: the
similarity score is `1 - distance`, with no clamping. -/
def processRow (r : RawRow) : SearchResult :=
  { content := r.document
    source := r.source_name
    relevance_score := 1 - r.distance
    doc_type := r.doc_type
    category := r.category
    title := r.title
    chunk_index := r.chunk_index
    total_chunks := r.total_chunks }

/-- `FloxVectorRAGService.search`: empty when not ready or when the query is
blank; otherwise embed the query and query the collection (a where-filter is
passed only when `doc_types` is a non-empty list, matching the Python
truthiness test `if doc_types:`), converting each row's distance to
`1 - distance`; any exception degrades to the empty list. -/
def search (st : State) (query : List Char) (n_results : Nat)
    (doc_types : Option (List (List Char))) : List SearchResult :=
  if st.is_ready = false then []
  else if pyStrip query = [] then []
  else
    let whereClause : Option (List (List Char)) :=
      match doc_types with
      | some ds => if ds = [] then none else some ds
      | none => none
    match st.queryIndex query n_results whereClause with
    | .error _ => []
    | .ok rows => rows.map processRow

/-- The pass-1 filter `['flox_docs', 'blog_post']` of `search_with_context`. -/
def preferred_doc_types : List (List Char) := ["flox_docs".data, "blog_post".data]

/-- The deduplication key `f"{result['source']}_{result.get('chunk_index', 0)}"`
of `search_with_context`. -/
def resultKey (r : SearchResult) : List Char :=
  r.source ++ '_' :: natDigits r.chunk_index

/-- The deduplication loop of `search_with_context`: keep the first
occurrence of each key, tracking the set of seen keys. -/
def dedupByKey : List SearchResult → List (List Char) → List SearchResult
  | [], _ => []
  | r :: rest, seen =>
    if resultKey r ∈ seen then dedupByKey rest seen
    else r :: dedupByKey rest (resultKey r :: seen)

/-- `FloxVectorRAGService.search_with_context`: search the enhanced query
(query, space, context, stripped) restricted to the preferred document
types; if fewer than `n_results` were found, top up with an unfiltered
search for the difference, deduplicate the concatenation by `resultKey`
keeping first occurrences, and truncate to `n_results`. -/
def search_with_context (st : State) (query context : List Char)
    (n_results : Nat) : List SearchResult :=
  if st.is_ready = false then []
  else
    let enhanced := pyStrip (query ++ ' ' :: context)
    let floxResults := search st enhanced n_results (some preferred_doc_types)
    if n_results ≤ floxResults.length then floxResults
    else
      let generalResults := search st enhanced (n_results - floxResults.length) none
      (dedupByKey (floxResults ++ generalResults) []).take n_results

end FloxVectorRAGService

namespace FloxRAGService

/-- The keyword list of `FloxRAGService.search`. -/
def flox_keywords : List (List Char) :=
  ["flox".data, "manifest".data, "environment".data, "package".data,
   "service".data, "activate".data]

/-- The fixed context phrase passed to `search_with_context`. -/
def context_phrase : List Char :=
  "flox development environment package management".data

/-- The boosting step of `FloxRAGService.search` applied to one result:
multiply by 1.5 for preferred document types, by a further 1.3 when the
query has Flox context and the content mentions `flox`, then clamp to at
most 1. -/
def boost (has_flox_context : Bool) (r : SearchResult) : SearchResult :=
  let s1 :=
    if r.doc_type ∈ ["flox_docs".data, "blog_post".data]
    then r.relevance_score * (3 / 2) else r.relevance_score
  let s2 :=
    if has_flox_context && containsSub "flox".data (pyLower r.content)
    then s1 * (13 / 10) else s1
  { r with relevance_score := min 1 s2 }

/-- Stable descending insertion by `relevance_score` (an element is placed
before the first element whose score is not larger). -/
def insertDesc (r : SearchResult) : List SearchResult → List SearchResult
  | [] => [r]
  | x :: xs =>
    if r.relevance_score < x.relevance_score then x :: insertDesc r xs
    else r :: x :: xs

/-- `results.sort(key=..., reverse=True)`: the stable descending sort by
`relevance_score`. -/
def sortByScore : List SearchResult → List SearchResult
  | [] => []
  | x :: xs => insertDesc x (sortByScore xs)

/-- The state of a `FloxRAGService`: its readiness flag and the underlying
vector service. -/
structure State where
  is_ready : Bool
  vector_service : FloxVectorRAGService.State

/-- `FloxRAGService.search`: empty when not ready; otherwise run
`search_with_context` with the fixed context phrase and `n_results=5`,
boost each result, and sort by boosted score descending. -/
def search (st : State) (query : List Char) : List SearchResult :=
  if st.is_ready = false then []
  else
    let results :=
      FloxVectorRAGService.search_with_context st.vector_service query context_phrase 5
    let has_flox_context := flox_keywords.any (fun w => containsSub w (pyLower query))
    sortByScore (results.map (boost has_flox_context))

/-- The `type_label` dictionary lookup of `get_context_for_query`, with its
`'Documentation'` default. -/
def type_label (dt : List Char) : List Char :=
  if dt = "flox_knowledge".data then "FloxAI Knowledge".data
  else if dt = "flox_docs".data then "Flox Documentation".data
  else if dt = "best_practices".data then "Flox Best Practices".data
  else if dt = "general".data then "Documentation".data
  else "Documentation".data

/-- One block `f"[{type_label}] {result['source']}\n{result['content']}"`. -/
def context_part (r : SearchResult) : List Char :=
  '[' :: type_label r.doc_type ++ ']' :: ' ' :: r.source ++ '\n' :: r.content

/-- The separator `"\n\n---\n\n"` joining context blocks. -/
def block_separator : List Char := "\n\n---\n\n".data

/-- `FloxRAGService.get_context_for_query`: search, and return the empty
context with the empty list when nothing was found, else the joined labelled
blocks of the top three results together with all results. -/
def get_context_for_query (st : State) (query : List Char) :
    List Char × List SearchResult :=
  let results := search st query
  if results = [] then ([], [])
  else (List.intercalate block_separator ((results.take 3).map context_part), results)

end FloxRAGService

namespace FloxDocumentProcessor

/-- `FloxDocumentProcessor._determine_doc_type`: case-insensitive first-match
substring classification of the file path. -/
def determine_doc_type (file_path : List Char) : List Char :=
  let path_str := pyLower file_path
  if containsSub "blogs".data path_str then "blog_post".data
  else if containsSub "flox".data path_str then "flox_docs".data
  else if containsSub "nix".data path_str then "nix_docs".data
  else if containsSub "processed".data path_str then "processed_docs".data
  else "general".data

/-- The category branch of `FloxDocumentProcessor._extract_metadata`:
case-sensitive first-match substring classification of `str(file_path)`,
with no `processed` case. -/
def extract_category (file_path : List Char) : List Char :=
  if containsSub "blogs".data file_path then "blog".data
  else if containsSub "flox".data file_path then "flox_docs".data
  else if containsSub "nix".data file_path then "nix_docs".data
  else "general".data

/-- One chunk record built by `FloxDocumentProcessor.process_document`.  The
`id` (a fresh UUID), the `created_at` timestamp, the `token_count` and the
remaining metadata entries are effects or fields no verified claim mentions
and are omitted; `category` is the category entry of the metadata map. -/
structure ChunkDoc where
  content : List Char
  chunk_index : Nat
  total_chunks : Nat
  source_file : List Char
  source_name : List Char
  doc_type : List Char
  category : List Char
deriving DecidableEq

/-- `FloxDocumentProcessor.process_document`: chunk the content, then build
one record per `enumerate(chunks)` entry whose stripped content is
non-empty, carrying the enumeration index, the total chunk count and the
source/type/category tags. -/
def process_document (file_path content doc_type : List Char) : List ChunkDoc :=
  let chunks := FloxEmbeddingService.chunk_text content
  chunks.enum.filterMap fun ic =>
    if pyStrip ic.2 = [] then none
    else some
      { content := ic.2
        chunk_index := ic.1
        total_chunks := chunks.length
        source_file := file_path
        source_name := pathName file_path
        doc_type := doc_type
        category := extract_category file_path }

/-- A source file visible to `process_directory`: its path and the outcome
of reading it (`none` models a read/decode failure). -/
structure SrcFile where
  path : List Char
  content : Option (List Char)

/-- `FloxDocumentProcessor.process_markdown_file`: read the file, classify
it and process it; every exception (a failed read, or the `RuntimeError`
`process_document` raises when the processor is not ready) is caught and
yields the empty list. -/
def process_markdown_file (is_ready : Bool) (f : SrcFile) : List ChunkDoc :=
  match f.content with
  | none => []
  | some content =>
    if is_ready = false then []
    else process_document f.path content (determine_doc_type f.path)

/-- `FloxDocumentProcessor.process_directory`: process every matched file
and concatenate the chunk lists. -/
def process_directory (is_ready : Bool) (files : List SrcFile) : List ChunkDoc :=
  files.flatMap (process_markdown_file is_ready)

end FloxDocumentProcessor

/-! Claim-side definitions: statements of the specification written in the
spec's own words, to be compared with the code translations above. -/

/-- The fixed doc-type/category renaming named by the classification-agreement
claim: `blog_post ↔ blog`, with `flox_docs`, `nix_docs` and `general` mapped
to themselves (identity elsewhere). -/
def categoryRename (dt : List Char) : List Char :=
  if dt = "blog_post".data then "blog".data else dt

/-- Claim-side deduplication of search results by the pair key
`(source, chunk_index)`, first occurrence winning. -/
def dedupByPair : List SearchResult → List (List Char × Nat) → List SearchResult
  | [], _ => []
  | r :: rest, seen =>
    if (r.source, r.chunk_index) ∈ seen then dedupByPair rest seen
    else r :: dedupByPair rest ((r.source, r.chunk_index) :: seen)

/-- Independent characterisation of the whitespace-split token count: the
number of maximal non-whitespace runs, counted left to right (the `Bool`
state is whether the previous character was inside a word). -/
def wordRunsAux : Bool → List Char → Nat
  | _, [] => 0
  | inWord, c :: rest =>
    if pyWs c then wordRunsAux false rest
    else (if inWord then 0 else 1) + wordRunsAux true rest

/-- The number of maximal non-whitespace runs of a text. -/
def wordRuns (l : List Char) : Nat :=
  wordRunsAux false l

/-- The rows the index oracle answers for a given `search` call (after the
same where-filter normalisation `search` performs), with an exception
degraded to no rows. -/
def rowsOf (st : FloxVectorRAGService.State) (query : List Char) (n_results : Nat)
    (doc_types : Option (List (List Char))) : List RawRow :=
  let whereClause : Option (List (List Char)) :=
    match doc_types with
    | some ds => if ds = [] then none else some ds
    | none => none
  match st.queryIndex query n_results whereClause with
  | .error _ => []
  | .ok rows => rows

/-- One accumulation step of the `chunk_text` loop when no split occurs:
append the stripped sentence to the running text with a single joining
space, skipping blank sentences. -/
def joinStep (acc s : List Char) : List Char :=
  let s' := pyStrip s
  if s' = [] then acc
  else if acc = [] then s' else acc ++ ' ' :: s'

/-- The single-space join of the non-blank stripped sentences of a sentence
list, in order (what `chunk_text` accumulates when no split occurs). -/
def joinSentences (sentences : List (List Char)) : List Char :=
  sentences.foldl joinStep []

/-- A text with neither leading nor trailing whitespace — the shape of every
stripped sentence and of the running chunk of the accumulation loop. -/
def noEdgeWs (l : List Char) : Prop :=
  (∀ c, l.head? = some c → pyWs c = false) ∧
    (∀ c, l.getLast? = some c → pyWs c = false)

/-- The length budget of a sentence list: each sentence's length plus one
joining character. -/
def sentBudget (ss : List (List Char)) : Nat :=
  (ss.map (fun s => s.length + 1)).sum

/-! Concrete states and records used by counterexamples and witnesses. -/

/-- A row whose cosine distance `3/2` is legal for ChromaDB
(cosine distance ranges over `[0, 2]`) but makes `1 - distance` negative. -/
def cexRow : RawRow :=
  { document := "use flox daily".data
    source_name := "doc.md".data
    doc_type := "flox_docs".data
    category := "flox_docs".data
    title := []
    chunk_index := 0
    total_chunks := 1
    distance := 3 / 2 }

/-- A ready vector service whose index answers `cexRow` to every query. -/
def cexVState : FloxVectorRAGService.State :=
  { is_ready := true, queryIndex := fun _ _ _ => .ok [cexRow] }

/-- A ready RAG service on top of `cexVState`. -/
def cexRagState : FloxRAGService.State :=
  { is_ready := true, vector_service := cexVState }

/-- A row with an in-range cosine distance `1/2`. -/
def w3Row : RawRow :=
  { document := "flox docs".data
    source_name := "b.md".data
    doc_type := "flox_docs".data
    category := "flox_docs".data
    title := []
    chunk_index := 2
    total_chunks := 3
    distance := 1 / 2 }

/-- A ready vector service whose index answers `w3Row` to every query. -/
def w3State : FloxVectorRAGService.State :=
  { is_ready := true, queryIndex := fun _ _ _ => .ok [w3Row] }

/-- A RAG service whose initialization has not completed. -/
def notReadyRagState : FloxRAGService.State :=
  { is_ready := false, vector_service := cexVState }

/-- An in-range search result for the boosting witness. -/
def wBoostR : SearchResult :=
  { content := "flox is here".data
    source := "a.md".data
    relevance_score := 1 / 2
    doc_type := "flox_docs".data
    category := "flox_docs".data
    title := []
    chunk_index := 0
    total_chunks := 1 }

/-- The single chunk record `process_document` builds from the document
`"Hello world."` at path `docs/a.md`. -/
def wDoc : FloxDocumentProcessor.ChunkDoc :=
  { content := "Hello world".data
    chunk_index := 0
    total_chunks := 1
    source_file := "docs/a.md".data
    source_name := "a.md".data
    doc_type := "general".data
    category := "general".data }

/-! Theorems. -/

/-- Claim C10: for every state of the index and every requested result
count, `FloxVectorRAGService.search` returns the empty list whenever the
query is empty or whitespace-only — also when the service is ready and the
collection non-empty; the result does not depend on the oracle, so neither
the embedder nor the index is consulted. -/
theorem blank_query_short_circuit (st : FloxVectorRAGService.State)
    (query : List Char) (n_results : Nat) (doc_types : Option (List (List Char)))
    (h : pyStrip query = []) :
    FloxVectorRAGService.search st query n_results doc_types = [] := by
  unfold FloxVectorRAGService.search
  cases hst : st.is_ready <;> simp [h]

/-- Witness for C10: a ready service over a non-empty collection still
answers a whitespace-only query with the empty list. -/
theorem blank_query_short_circuit_witness :
    pyStrip "   ".data = [] ∧
      FloxVectorRAGService.search cexVState "   ".data 5 none = [] :=
  ⟨by decide, blank_query_short_circuit cexVState "   ".data 5 none (by decide)⟩

/-- Claim C5: when the retriever is not ready, `FloxRAGService.search`
returns the empty list instead of raising, and `get_context_for_query`
returns the empty context with the empty result list. -/
theorem not_ready_degrades (st : FloxRAGService.State) (query : List Char)
    (h : st.is_ready = false) :
    FloxRAGService.search st query = [] ∧
      FloxRAGService.get_context_for_query st query = ([], []) := by
  refine ⟨by simp [FloxRAGService.search, h], ?_⟩
  simp [FloxRAGService.get_context_for_query, FloxRAGService.search, h]

/-- Witness for C5 at a concrete not-ready service. -/
theorem not_ready_degrades_witness :
    notReadyRagState.is_ready = false ∧
      (FloxRAGService.search notReadyRagState "flox".data = [] ∧
        FloxRAGService.get_context_for_query notReadyRagState "flox".data = ([], [])) :=
  ⟨rfl, not_ready_degrades notReadyRagState "flox".data rfl⟩

/-- Claim C6: `process_directory` of a ready processor raises nothing (it is
a total function), every file whose read failed contributes zero chunks, and
the output is exactly the concatenation, in order, of the chunks produced
from the files that were read successfully. -/
theorem directory_partial_failure (files : List FloxDocumentProcessor.SrcFile) :
    FloxDocumentProcessor.process_directory true files =
      (files.filterMap (fun f => f.content.map (fun c => (f.path, c)))).flatMap
        (fun pc =>
          FloxDocumentProcessor.process_document pc.1 pc.2
            (FloxDocumentProcessor.determine_doc_type pc.1)) := by
  induction files with
  | nil => rfl
  | cons f rest ih =>
    cases hc : f.content with
    | none =>
      simp [FloxDocumentProcessor.process_directory,
        FloxDocumentProcessor.process_markdown_file, hc, ih,
        FloxDocumentProcessor.process_directory] at ih ⊢
      exact ih
    | some c =>
      simp [FloxDocumentProcessor.process_directory,
        FloxDocumentProcessor.process_markdown_file, hc] at ih ⊢
      exact ih

/-- Counterexample for C8: for the path `Blogs/post.md`, the
case-insensitive doc-type classification answers `blog_post` while the
case-sensitive category classification answers `general`, so the two tags do
not agree under the claimed renaming. -/
theorem classification_disagreement :
    FloxDocumentProcessor.determine_doc_type "Blogs/post.md".data = "blog_post".data ∧
      FloxDocumentProcessor.extract_category "Blogs/post.md".data = "general".data ∧
      categoryRename (FloxDocumentProcessor.determine_doc_type "Blogs/post.md".data) ≠
        FloxDocumentProcessor.extract_category "Blogs/post.md".data := by
  refine ⟨by decide, by decide, by decide⟩

/-- Claim C8 as amended: `_determine_doc_type` is the case-insensitive
first-match classification over (blogs, flox, nix, processed) with fallback
`general`, `_extract_metadata`'s category is a case-sensitive first-match
classification over (blogs, flox, nix) only, and the two agree under the
renaming `blog_post ↔ blog` on every path that is already lower-case and
does not contain `processed`. -/
theorem classification_agreement_lowercase (p : List Char)
    (hlow : pyLower p = p)
    (hproc : containsSub "processed".data p = false) :
    categoryRename (FloxDocumentProcessor.determine_doc_type p) =
      FloxDocumentProcessor.extract_category p := by
  unfold FloxDocumentProcessor.determine_doc_type FloxDocumentProcessor.extract_category
  rw [hlow]
  rcases hb : containsSub "blogs".data p <;>
    rcases hf : containsSub "flox".data p <;>
      rcases hn : containsSub "nix".data p <;>
        simp [hb, hf, hn, hproc, categoryRename]

/-- Witness for C8 at the lower-case path `docs/flox/guide.md`. -/
theorem classification_agreement_witness :
    pyLower "docs/flox/guide.md".data = "docs/flox/guide.md".data ∧
      containsSub "processed".data "docs/flox/guide.md".data = false ∧
      categoryRename (FloxDocumentProcessor.determine_doc_type "docs/flox/guide.md".data) =
        FloxDocumentProcessor.extract_category "docs/flox/guide.md".data :=
  ⟨by decide, by decide,
    classification_agreement_lowercase "docs/flox/guide.md".data (by decide) (by decide)⟩

/-- Counterexample for C9: the whitespace fallback token count is not
monotonic with text length — `"a b c"` is shorter than `"abcdef"` but has
the larger count. -/
theorem token_count_not_monotone :
    "a b c".data.length ≤ "abcdef".data.length ∧
      FloxEmbeddingService.get_token_count none "abcdef".data <
        FloxEmbeddingService.get_token_count none "a b c".data := by
  refine ⟨by decide, by decide⟩

/-- Helper for C9: the word-splitting loop counts exactly the maximal
non-whitespace runs, offset by the pending word in the accumulator. -/
theorem pySplitAux_length (l : List Char) :
    ∀ cur, (pySplitAux l cur).length =
      wordRunsAux (cur ≠ []) l + (if cur = [] then 0 else 1) := by
  induction l with
  | nil =>
    intro cur
    by_cases h : cur = [] <;> simp [pySplitAux, wordRunsAux, h]
  | cons c rest ih =>
    intro cur
    by_cases hw : pyWs c
    · by_cases h : cur = [] <;>
        simp [pySplitAux, wordRunsAux, hw, h, ih]
    · by_cases h : cur = [] <;>
        simp [pySplitAux, wordRunsAux, hw, h, ih, Nat.add_comm]

/-- Helper: the digit accumulator is the digit list followed by the
accumulator. -/
theorem natDigitsAux_append (f : Nat) :
    ∀ n acc, natDigitsAux f n acc = natDigitsAux f n [] ++ acc := by
  induction f with
  | zero => intro n acc; rfl
  | succ f ih =>
    intro n acc
    by_cases h : n < 10
    · simp [natDigitsAux, h]
    · simp only [natDigitsAux, h, if_false]
      rw [ih (n / 10) (Char.ofNat (48 + n % 10) :: acc),
        ih (n / 10) [Char.ofNat (48 + n % 10)]]
      simp

/-- Helper: any amount of fuel beyond the rendered number gives the same
digits. -/
theorem natDigitsAux_fuel :
    ∀ f g n acc, n < f → n < g → natDigitsAux f n acc = natDigitsAux g n acc := by
  intro f
  induction f with
  | zero => intro g n acc hf _; omega
  | succ f ih =>
    intro g n acc hf hg
    cases g with
    | zero => omega
    | succ g =>
      by_cases h : n < 10
      · simp [natDigitsAux, h]
      · simp only [natDigitsAux, h, if_false]
        have hdiv : n / 10 < n := Nat.div_lt_self (by omega) (by omega)
        exact ih g (n / 10) _ (by omega) (by omega)

/-- Helper: decimal rendering of a single-digit number. -/
theorem natDigits_lt10 (n : Nat) (h : n < 10) :
    natDigits n = [Char.ofNat (48 + n % 10)] := by
  simp [natDigits, natDigitsAux, h]

/-- Helper: decimal rendering of a multi-digit number peels off the last
digit. -/
theorem natDigits_ge10 (n : Nat) (h : 10 ≤ n) :
    natDigits n = natDigits (n / 10) ++ [Char.ofNat (48 + n % 10)] := by
  have hdiv : n / 10 < n := Nat.div_lt_self (by omega) (by omega)
  show natDigitsAux (n + 1) n [] = _
  rw [show natDigitsAux (n + 1) n [] =
      natDigitsAux n (n / 10) [Char.ofNat (48 + n % 10)] from by
    simp [natDigitsAux, show ¬ n < 10 by omega]]
  rw [natDigitsAux_append, natDigitsAux_fuel n (n / 10 + 1) (n / 10) [] (by omega) (by omega)]
  rfl

/-- Helper: a decimal rendering is never empty. -/
theorem natDigits_ne_nil (n : Nat) : natDigits n ≠ [] := by
  by_cases h : n < 10
  · rw [natDigits_lt10 n h]; simp
  · rw [natDigits_ge10 n (by omega)]; simp

/-- Helper: a decimal digit character is never an underscore. -/
theorem digitChar_ne_underscore : ∀ k, k < 10 → Char.ofNat (48 + k) ≠ '_' := by
  decide

/-- Helper: decimal renderings contain no underscore. -/
theorem natDigits_no_underscore (n : Nat) : '_' ∉ natDigits n := by
  induction n using Nat.strong_induction_on with
  | _ n ih =>
    by_cases h : n < 10
    · rw [natDigits_lt10 n h]
      simp only [List.mem_singleton]
      exact fun he => digitChar_ne_underscore (n % 10) (Nat.mod_lt _ (by omega)) he.symm
    · rw [natDigits_ge10 n (by omega)]
      have hdiv : n / 10 < n := Nat.div_lt_self (by omega) (by omega)
      simp only [List.mem_append, List.mem_singleton]
      rintro (hm | he)
      · exact ih (n / 10) hdiv hm
      · exact digitChar_ne_underscore (n % 10) (Nat.mod_lt _ (by omega)) he.symm

/-- Helper: decimal digit characters determine the digit. -/
theorem digitChar_inj :
    ∀ a, a < 10 → ∀ b, b < 10 → Char.ofNat (48 + a) = Char.ofNat (48 + b) → a = b := by
  decide

/-- Helper: decimal rendering is injective. -/
theorem natDigits_inj : ∀ m n, natDigits m = natDigits n → m = n := by
  intro m
  induction m using Nat.strong_induction_on with
  | _ m ih =>
    intro n h
    by_cases hm : m < 10 <;> by_cases hn : n < 10
    · rw [natDigits_lt10 m hm, natDigits_lt10 n hn] at h
      simp only [List.cons.injEq, and_true] at h
      have := digitChar_inj (m % 10) (Nat.mod_lt _ (by omega)) (n % 10)
        (Nat.mod_lt _ (by omega)) h
      omega
    · exfalso
      rw [natDigits_lt10 m hm, natDigits_ge10 n (by omega)] at h
      have := congrArg List.length h
      simp at this
      exact natDigits_ne_nil (n / 10) this
    · exfalso
      rw [natDigits_ge10 m (by omega), natDigits_lt10 n hn] at h
      have := congrArg List.length h
      simp at this
      exact natDigits_ne_nil (m / 10) this
    · rw [natDigits_ge10 m (by omega), natDigits_ge10 n (by omega)] at h
      obtain ⟨h1, h2⟩ := List.append_inj' h (by simp)
      have hdiv : m / 10 < m := Nat.div_lt_self (by omega) (by omega)
      have hq : m / 10 = n / 10 := ih (m / 10) hdiv (n / 10) h1
      simp only [List.cons.injEq, and_true] at h2
      have hr := digitChar_inj (m % 10) (Nat.mod_lt _ (by omega)) (n % 10)
        (Nat.mod_lt _ (by omega)) h2
      have := Nat.div_add_mod m 10
      have := Nat.div_add_mod n 10
      omega

/-- Helper: splitting a list at an underscore separator is unambiguous when
neither left part contains an underscore. -/
theorem underscore_append_inj :
    ∀ a1 b1 a2 b2 : List Char, '_' ∉ a1 → '_' ∉ a2 →
      a1 ++ '_' :: b1 = a2 ++ '_' :: b2 → a1 = a2 ∧ b1 = b2 := by
  intro a1
  induction a1 with
  | nil =>
    intro b1 a2 b2 _ h2 h
    cases a2 with
    | nil => simpa using h
    | cons c a2' =>
      exfalso
      simp only [List.nil_append, List.cons_append, List.cons.injEq] at h
      exact h2 (h.1 ▸ List.mem_cons_self _ _)
  | cons c a1' ih =>
    intro b1 a2 b2 h1 h2 h
    cases a2 with
    | nil =>
      exfalso
      simp only [List.cons_append, List.nil_append, List.cons.injEq] at h
      exact h1 (h.1 ▸ List.mem_cons_self _ _)
    | cons c2 a2' =>
      simp only [List.cons_append, List.cons.injEq] at h
      obtain ⟨rfl, hrest⟩ := h
      have h1' : '_' ∉ a1' := fun hm => h1 (List.mem_cons_of_mem _ hm)
      have h2' : '_' ∉ a2' := fun hm => h2 (List.mem_cons_of_mem _ hm)
      obtain ⟨ha, hb⟩ := ih b1 a2' b2 h1' h2' hrest
      exact ⟨by rw [ha], hb⟩

/-- Helper: the string key `source ++ "_" ++ digits` determines the
`(source, chunk index)` pair. -/
theorem key_pair_inj (s1 : List Char) (i1 : Nat) (s2 : List Char) (i2 : Nat)
    (h : s1 ++ '_' :: natDigits i1 = s2 ++ '_' :: natDigits i2) :
    s1 = s2 ∧ i1 = i2 := by
  have h' := congrArg List.reverse h
  rw [List.reverse_append, List.reverse_append, List.reverse_cons,
    List.reverse_cons, List.append_assoc, List.append_assoc,
    List.singleton_append, List.singleton_append] at h'
  have hd1 : '_' ∉ (natDigits i1).reverse := by
    rw [List.mem_reverse]; exact natDigits_no_underscore i1
  have hd2 : '_' ∉ (natDigits i2).reverse := by
    rw [List.mem_reverse]; exact natDigits_no_underscore i2
  obtain ⟨hds, hss⟩ := underscore_append_inj _ _ _ _ hd1 hd2 h'
  constructor
  · have := congrArg List.reverse hss
    simpa using this
  · apply natDigits_inj
    have := congrArg List.reverse hds
    simpa using this

/-- Helper: deduplicating by the string key `f"{source}_{chunk_index}"` is
deduplicating by the `(source, chunk_index)` pair, for any common seen set. -/
theorem dedup_key_eq_pair (l : List SearchResult) :
    ∀ seen : List (List Char × Nat),
      FloxVectorRAGService.dedupByKey l
          (seen.map (fun p => p.1 ++ '_' :: natDigits p.2)) =
        dedupByPair l seen := by
  induction l with
  | nil => intro seen; rfl
  | cons r rest ih =>
    intro seen
    have hkey : FloxVectorRAGService.resultKey r =
        (fun p : List Char × Nat => p.1 ++ '_' :: natDigits p.2)
          (r.source, r.chunk_index) := rfl
    by_cases h : (r.source, r.chunk_index) ∈ seen
    · have hk : FloxVectorRAGService.resultKey r ∈
          seen.map (fun p => p.1 ++ '_' :: natDigits p.2) := by
        rw [hkey]; exact List.mem_map_of_mem _ h
      simp only [FloxVectorRAGService.dedupByKey, dedupByPair, h, hk, if_true, if_pos]
      exact ih seen
    · have hk : FloxVectorRAGService.resultKey r ∉
          seen.map (fun p => p.1 ++ '_' :: natDigits p.2) := by
        intro hm
        obtain ⟨p, hp, hpe⟩ := List.mem_map.mp hm
        obtain ⟨hs, hi⟩ := key_pair_inj p.1 p.2 r.source r.chunk_index hpe
        exact h (by rw [← hs, ← hi]; exact hp)
      simp only [FloxVectorRAGService.dedupByKey, dedupByPair, h, hk, if_neg,
        not_false_iff]
      show r :: FloxVectorRAGService.dedupByKey rest
          (((r.source, r.chunk_index) :: seen).map
            (fun p => p.1 ++ '_' :: natDigits p.2)) =
        r :: dedupByPair rest ((r.source, r.chunk_index) :: seen)
      rw [ih ((r.source, r.chunk_index) :: seen)]

/-- Claim C1: `search_with_context` first queries restricted to
`['flox_docs', 'blog_post']`; a pass-1 answer of at least `n_results`
results is returned as is and pass 2 is skipped; otherwise an unfiltered
query for the missing count is made, pass-1 results precede pass-2 results,
the concatenation is deduplicated by the `(source, chunk_index)` key with
first occurrences winning, and the output is truncated to `n_results`. -/
theorem two_pass_retrieval (st : FloxVectorRAGService.State)
    (query context : List Char) (n_results : Nat) :
    FloxVectorRAGService.search_with_context st query context n_results =
      (let enhanced := pyStrip (query ++ ' ' :: context)
       let pass1 := FloxVectorRAGService.search st enhanced n_results
         (some FloxVectorRAGService.preferred_doc_types)
       if n_results ≤ pass1.length then pass1
       else
         (dedupByPair
           (pass1 ++
             FloxVectorRAGService.search st enhanced (n_results - pass1.length) none)
           []).take n_results) := by
  unfold FloxVectorRAGService.search_with_context
  cases hr : st.is_ready with
  | false =>
    have hs : ∀ n dt, FloxVectorRAGService.search st (pyStrip (query ++ ' ' :: context)) n dt = [] := by
      intro n dt
      simp [FloxVectorRAGService.search, hr]
    simp only [Bool.false_eq_true, if_true, if_pos rfl, hs]
    split
    · rfl
    · simp [dedupByPair]
  | true =>
    simp only [hr, if_neg, Bool.true_eq_false, not_false_iff, if_false]
    split
    · rfl
    · rw [← dedup_key_eq_pair _ []]
      rfl

/-- Counterexample for C2: a result reachable from a legal cosine distance
of `3/2` has raw score `-1/2`, and the boosting of `FloxRAGService.search`
maps it to `-39/40`, which is smaller than the raw score — so boosting is
not monotone on every processed result. -/
theorem boosting_not_monotone :
    (FloxVectorRAGService.search_with_context cexVState "flox".data
        FloxRAGService.context_phrase 5).map (fun r => r.relevance_score) =
      [1 - (3 / 2 : ℚ)] ∧
    (FloxRAGService.search cexRagState "flox".data).map (fun r => r.relevance_score) =
      [min 1 ((1 - (3 / 2 : ℚ)) * (3 / 2) * (13 / 10))] ∧
    min 1 ((1 - (3 / 2 : ℚ)) * (3 / 2) * (13 / 10)) = -(39 / 40) ∧
    ¬ (1 - (3 / 2 : ℚ) ≤ -(39 / 40 : ℚ)) := by
  refine ⟨rfl, rfl, ?_, by norm_num⟩
  rw [min_eq_right (by norm_num)]
  norm_num

/-- Claim C2 as amended: boosting is monotone and bounded only on raw scores
already in `[0, 1]` — for such a result the boosted score is at least the
raw score and at most `1`.  (For raw scores outside `[0, 1]`, which the
unclamped similarity `1 - distance` can produce, the property fails, per the
counterexample.) -/
theorem boost_monotone_on_unit (has_flox_context : Bool) (r : SearchResult)
    (h0 : 0 ≤ r.relevance_score) (h1 : r.relevance_score ≤ 1) :
    r.relevance_score ≤ (FloxRAGService.boost has_flox_context r).relevance_score ∧
      (FloxRAGService.boost has_flox_context r).relevance_score ≤ 1 := by
  unfold FloxRAGService.boost
  refine ⟨?_, min_le_left _ _⟩
  rw [le_min_iff]
  refine ⟨h1, ?_⟩
  split <;> split <;> nlinarith

/-- Witness for C2 at a concrete in-range result. -/
theorem boost_monotone_on_unit_witness :
    (0 ≤ wBoostR.relevance_score ∧ wBoostR.relevance_score ≤ 1) ∧
      (wBoostR.relevance_score ≤ (FloxRAGService.boost true wBoostR).relevance_score ∧
        (FloxRAGService.boost true wBoostR).relevance_score ≤ 1) :=
  ⟨⟨by norm_num [wBoostR], by norm_num [wBoostR]⟩,
    boost_monotone_on_unit true wBoostR (by norm_num [wBoostR]) (by norm_num [wBoostR])⟩

/-- Counterexample for C3: a query against an index reporting the legal
cosine distance `3/2` yields a search result whose exposed relevance score
is `1 - 3/2 < 0` — no clamping into `[0, 1]` happens. -/
theorem score_not_clamped :
    (FloxVectorRAGService.search cexVState "flox".data 5 none).map
        (fun r => r.relevance_score) = [1 - (3 / 2 : ℚ)] ∧
      (1 - (3 / 2 : ℚ)) < 0 :=
  ⟨rfl, by norm_num⟩

/-- Helper: `search` maps `processRow` over exactly the rows of `rowsOf`
when it is ready and the query is non-blank. -/
theorem search_eq_rowsOf (st : FloxVectorRAGService.State) (query : List Char)
    (n_results : Nat) (doc_types : Option (List (List Char))) :
    FloxVectorRAGService.search st query n_results doc_types =
      if st.is_ready = false then []
      else if pyStrip query = [] then []
      else (rowsOf st query n_results doc_types).map FloxVectorRAGService.processRow := by
  unfold FloxVectorRAGService.search rowsOf
  dsimp only
  split
  · rfl
  · split
    · rfl
    · cases st.queryIndex query n_results
        (match doc_types with
          | some ds => if ds = [] then none else some ds
          | none => none) <;> rfl

/-- Claim C3 as amended: every search result is built from an answered index
row with relevance score exactly `1 - distance` (no clamping), and the
scores all lie in `[0, 1]` exactly when the index's reported distances all
lie in `[0, 1]`. -/
theorem similarity_one_minus_distance (st : FloxVectorRAGService.State)
    (query : List Char) (n_results : Nat) (doc_types : Option (List (List Char))) :
    (∀ r ∈ FloxVectorRAGService.search st query n_results doc_types,
      ∃ row ∈ rowsOf st query n_results doc_types,
        r = FloxVectorRAGService.processRow row ∧
          r.relevance_score = 1 - row.distance) ∧
    ((∀ row ∈ rowsOf st query n_results doc_types,
        0 ≤ row.distance ∧ row.distance ≤ 1) →
      ∀ r ∈ FloxVectorRAGService.search st query n_results doc_types,
        0 ≤ r.relevance_score ∧ r.relevance_score ≤ 1) := by
  have hmain : ∀ r ∈ FloxVectorRAGService.search st query n_results doc_types,
      ∃ row ∈ rowsOf st query n_results doc_types,
        r = FloxVectorRAGService.processRow row ∧
          r.relevance_score = 1 - row.distance := by
    intro r hr
    rw [search_eq_rowsOf] at hr
    split at hr
    · simp at hr
    · split at hr
      · simp at hr
      · obtain ⟨row, hrow, rfl⟩ := List.mem_map.mp hr
        exact ⟨row, hrow, rfl, rfl⟩
  refine ⟨hmain, ?_⟩
  intro hbound r hr
  obtain ⟨row, hrow, -, hscore⟩ := hmain r hr
  obtain ⟨hd0, hd1⟩ := hbound row hrow
  rw [hscore]
  constructor <;> linarith

/-- Witness for C3 at a concrete index answering distance `1/2`. -/
theorem similarity_one_minus_distance_witness :
    0 ≤ (FloxVectorRAGService.processRow w3Row).relevance_score ∧
      (FloxVectorRAGService.processRow w3Row).relevance_score ≤ 1 :=
  (similarity_one_minus_distance w3State "flox".data 5 none).2
    (by
      intro row hrow
      have : row ∈ [w3Row] := hrow
      rw [List.mem_singleton] at this
      subst this
      constructor <;> norm_num [w3Row])
    (FloxVectorRAGService.processRow w3Row)
    (List.mem_singleton.mpr rfl)

/-- Claim C7: every chunk record emitted by `process_document` has
`chunk_index < total_chunks` and content that is non-empty after stripping
whitespace. -/
theorem chunk_record_invariant (file_path content doc_type : List Char)
    (r : FloxDocumentProcessor.ChunkDoc)
    (hr : r ∈ FloxDocumentProcessor.process_document file_path content doc_type) :
    r.chunk_index < r.total_chunks ∧ pyStrip r.content ≠ [] := by
  unfold FloxDocumentProcessor.process_document at hr
  rw [List.mem_filterMap] at hr
  obtain ⟨ic, hic, hsome⟩ := hr
  by_cases h : pyStrip ic.2 = []
  · simp [h] at hsome
  · simp only [h, if_neg, not_false_iff, Option.some.injEq] at hsome
    obtain ⟨i, c⟩ := ic
    have henum := List.mem_enum hic
    subst hsome
    exact ⟨henum.1, h⟩

/-- Witness for C7: the record built from `"Hello world."`. -/
theorem chunk_record_invariant_witness :
    wDoc ∈ FloxDocumentProcessor.process_document "docs/a.md".data
        "Hello world.".data "general".data ∧
      (wDoc.chunk_index < wDoc.total_chunks ∧ pyStrip wDoc.content ≠ []) :=
  have h : wDoc ∈ FloxDocumentProcessor.process_document "docs/a.md".data
      "Hello world.".data "general".data := by decide
  ⟨h, chunk_record_invariant "docs/a.md".data "Hello world.".data "general".data wDoc h⟩

/-- Claim C9 as amended: `get_token_count` is total with values in `ℕ`;
with no tokenizer loaded it is the whitespace-split token count, which
equals the number of maximal non-whitespace runs of the text; the
length-monotonicity part of the claim is dropped. -/
theorem token_count_fallback (text : List Char) :
    FloxEmbeddingService.get_token_count none text = (pySplit text).length ∧
      FloxEmbeddingService.get_token_count none text = wordRuns text := by
  refine ⟨rfl, ?_⟩
  show (pySplit text).length = wordRuns text
  rw [pySplit, pySplitAux_length, wordRuns]
  simp

/-- Helper: unfolding of `dropTrailWs` on a cons cell. -/
theorem dropTrailWs_cons (c : Char) (l : List Char) :
    dropTrailWs (c :: l) =
      if pyWs c && decide (dropTrailWs l = []) then [] else c :: dropTrailWs l := rfl

/-- Helper: removing trailing whitespace does not lengthen a text. -/
theorem length_dropTrailWs_le (l : List Char) : (dropTrailWs l).length ≤ l.length := by
  induction l with
  | nil => simp [dropTrailWs]
  | cons c t ih =>
    rw [dropTrailWs_cons]
    split
    · simp
    · simpa using ih

/-- Helper: `dropWhile` does not lengthen a list. -/
theorem length_dropWhile_le' (p : Char → Bool) (l : List Char) :
    (l.dropWhile p).length ≤ l.length := by
  induction l with
  | nil => simp
  | cons c t ih =>
    rw [List.dropWhile_cons]
    split
    · exact Nat.le_succ_of_le ih
    · simp

/-- Helper: `takeWhile` does not lengthen a list. -/
theorem length_takeWhile_le' (p : Char → Bool) (l : List Char) :
    (l.takeWhile p).length ≤ l.length := by
  induction l with
  | nil => simp
  | cons c t ih =>
    rw [List.takeWhile_cons]
    split
    · simpa using ih
    · simp

/-- Helper: stripping does not lengthen a text. -/
theorem length_pyStrip_le (l : List Char) : (pyStrip l).length ≤ l.length :=
  le_trans (length_dropTrailWs_le _) (length_dropWhile_le' _ _)

/-- Helper: the head surviving `dropWhile p` does not satisfy `p`. -/
theorem head?_dropWhile_not (p : Char → Bool) (l : List Char) :
    ∀ c, (l.dropWhile p).head? = some c → p c = false := by
  induction l with
  | nil => intro c h; simp at h
  | cons a t ih =>
    intro c h
    rw [List.dropWhile_cons] at h
    split at h
    · exact ih c h
    · rename_i hp
      simp only [List.head?_cons, Option.some.injEq] at h
      subst h
      simpa using hp

/-- Helper: removing trailing whitespace keeps the head or empties the text. -/
theorem dropTrailWs_head? (l : List Char) :
    dropTrailWs l = [] ∨ (dropTrailWs l).head? = l.head? := by
  cases l with
  | nil => left; rfl
  | cons c t =>
    rw [dropTrailWs_cons]
    split
    · left; rfl
    · right; rfl

/-- Helper: the last character surviving `dropTrailWs` is not whitespace. -/
theorem dropTrailWs_getLast? (l : List Char) :
    ∀ c, (dropTrailWs l).getLast? = some c → pyWs c = false := by
  induction l with
  | nil => intro c h; simp [dropTrailWs] at h
  | cons a t ih =>
    intro c h
    rw [dropTrailWs_cons] at h
    split at h
    · simp at h
    · rename_i hcond
      cases hd : dropTrailWs t with
      | nil =>
        rw [hd] at h
        simp only [List.getLast?_singleton, Option.some.injEq] at h
        subst h
        simp [hd] at hcond
        simpa using hcond
      | cons b t' =>
        rw [hd, List.getLast?_cons_cons] at h
        exact ih c (by rw [hd]; exact h)

/-- Helper: the empty text has no whitespace edge. -/
theorem noEdgeWs_nil : noEdgeWs [] :=
  ⟨fun c h => by simp at h, fun c h => by simp at h⟩

/-- Helper: a stripped text has no whitespace edge. -/
theorem noEdgeWs_pyStrip (l : List Char) : noEdgeWs (pyStrip l) := by
  constructor
  · intro c h
    rcases dropTrailWs_head? (l.dropWhile pyWs) with he | hh
    · rw [pyStrip, he] at h
      simp at h
    · rw [pyStrip, hh] at h
      exact head?_dropWhile_not pyWs l c h
  · intro c h
    exact dropTrailWs_getLast? (l.dropWhile pyWs) c h

/-- Helper: `dropWhile` is the identity when the head does not satisfy the
predicate. -/
theorem dropWhile_eq_self_of_head (p : Char → Bool) (l : List Char)
    (h : ∀ c, l.head? = some c → p c = false) : l.dropWhile p = l := by
  cases l with
  | nil => rfl
  | cons a t =>
    rw [List.dropWhile_cons, h a rfl]
    simp

/-- Helper: `dropTrailWs` is the identity when the last character is not
whitespace. -/
theorem dropTrailWs_eq_self_of_getLast (l : List Char)
    (h : ∀ c, l.getLast? = some c → pyWs c = false) : dropTrailWs l = l := by
  induction l with
  | nil => rfl
  | cons a t ih =>
    cases t with
    | nil =>
      have ha := h a (by simp)
      rw [dropTrailWs_cons]
      simp [ha, dropTrailWs]
    | cons b t' =>
      have ht : dropTrailWs (b :: t') = b :: t' :=
        ih (fun c hc => h c (by rw [List.getLast?_cons_cons]; exact hc))
      rw [dropTrailWs_cons, ht]
      simp

/-- Helper: stripping is the identity on a text with no whitespace edge. -/
theorem pyStrip_eq_self (l : List Char) (h : noEdgeWs l) : pyStrip l = l := by
  rw [pyStrip, dropWhile_eq_self_of_head pyWs l h.1,
    dropTrailWs_eq_self_of_getLast l h.2]

/-- Helper: joining two edge-clean non-empty texts with a space is
edge-clean. -/
theorem noEdgeWs_append (cur s : List Char) (hcur : noEdgeWs cur) (hc : cur ≠ [])
    (hs : noEdgeWs s) (hsne : s ≠ []) : noEdgeWs (cur ++ ' ' :: s) := by
  constructor
  · intro c h
    rw [List.head?_append] at h
    cases cur with
    | nil => exact absurd rfl hc
    | cons a t =>
      simp only [List.head?_cons, Option.or_some] at h
      exact hcur.1 c (by simpa using h)
  · intro c h
    rw [List.getLast?_append] at h
    cases s with
    | nil => exact absurd rfl hsne
    | cons b t =>
      rw [List.getLast?_cons_cons] at h
      have hbt : (b :: t).getLast? = some ((b :: t).getLast (by simp)) :=
        List.getLast?_eq_getLast _ _
      rw [hbt] at h
      simp only [Option.or_some, Option.some.injEq] at h
      exact hs.2 c (by rw [hbt, h])

/-- Helper: the budget of a sentence list, unfolded one sentence. -/
theorem sentBudget_cons (s : List Char) (ss : List (List Char)) :
    sentBudget (s :: ss) = (s.length + 1) + sentBudget ss := by
  simp [sentBudget]

/-- Helper: the sentences of a split fit inside the split text plus one
joining character per sentence (every boundary consumed at least one
terminator character). -/
theorem splitPA_budget :
    ∀ (l : List Char) (inRun : Bool) (cur : List Char),
      sentBudget (splitPA inRun l cur) ≤ l.length + cur.length + 1 := by
  intro l
  induction l with
  | nil =>
    intro inRun cur
    simp [splitPA, sentBudget_cons, sentBudget]
  | cons c rest ih =>
    intro inRun cur
    by_cases hp : isPunct c
    · cases inRun
      · simp only [splitPA, hp, if_true, Bool.false_eq_true, if_false]
        rw [sentBudget_cons]
        have := ih true []
        simp only [List.length_nil, List.length_cons, List.length_reverse] at this ⊢
        omega
      · simp only [splitPA, hp, if_true]
        have := ih true cur
        simp only [List.length_cons]
        omega
    · simp only [splitPA, hp, Bool.false_eq_true, if_false]
      have := ih false (c :: cur)
      simp only [List.length_cons] at this ⊢
      omega

/-- Helper: budget bound for the whole sentence split. -/
theorem splitPunct_budget (l : List Char) : sentBudget (splitPunct l) ≤ l.length + 1 := by
  have := splitPA_budget l false []
  simpa [splitPunct] using this

/-- Helper: accumulating sentences never shrinks or empties a non-empty
running chunk. -/
theorem foldl_joinStep_ge :
    ∀ (ss : List (List Char)) (cur : List Char), cur ≠ [] →
      cur.length ≤ (List.foldl joinStep cur ss).length ∧
        List.foldl joinStep cur ss ≠ [] := by
  intro ss
  induction ss with
  | nil => intro cur hc; exact ⟨le_refl _, hc⟩
  | cons s ss' ih =>
    intro cur hc
    rw [List.foldl_cons]
    by_cases hs : pyStrip s = []
    · rw [show joinStep cur s = cur from by simp [joinStep, hs]]
      exact ih cur hc
    · have hstep : joinStep cur s = cur ++ ' ' :: pyStrip s := by
        simp [joinStep, hs, hc]
      rw [hstep]
      have hne : cur ++ ' ' :: pyStrip s ≠ [] := by simp
      obtain ⟨h1, h2⟩ := ih (cur ++ ' ' :: pyStrip s) hne
      refine ⟨le_trans ?_ h1, h2⟩
      simp

/-- Helper: the accumulated join fits inside the running chunk plus the
budget of the remaining sentences. -/
theorem foldl_joinStep_budget :
    ∀ (ss : List (List Char)) (cur : List Char), cur ≠ [] →
      (List.foldl joinStep cur ss).length ≤ cur.length + sentBudget ss := by
  intro ss
  induction ss with
  | nil => intro cur _; simp [sentBudget]
  | cons s ss' ih =>
    intro cur hc
    rw [List.foldl_cons, sentBudget_cons]
    by_cases hs : pyStrip s = []
    · rw [show joinStep cur s = cur from by simp [joinStep, hs]]
      have := ih cur hc
      omega
    · have hstep : joinStep cur s = cur ++ ' ' :: pyStrip s := by
        simp [joinStep, hs, hc]
      rw [hstep]
      have hne : cur ++ ' ' :: pyStrip s ≠ [] := by simp
      have h1 := ih (cur ++ ' ' :: pyStrip s) hne
      have h2 : (pyStrip s).length ≤ s.length := length_pyStrip_le s
      simp only [List.length_append, List.length_cons] at h1
      omega

/-- Helper: the joined sentences are empty or fit inside the sentence
budget minus the missing first separator. -/
theorem joinSentences_budget (ss : List (List Char)) :
    joinSentences ss = [] ∨ (joinSentences ss).length + 1 ≤ sentBudget ss := by
  induction ss with
  | nil => left; rfl
  | cons s ss' ih =>
    rw [joinSentences, List.foldl_cons]
    by_cases hs : pyStrip s = []
    · rw [show joinStep [] s = [] from by simp [joinStep, hs]]
      rcases ih with h | h
      · left; exact h
      · right
        rw [sentBudget_cons]
        rw [joinSentences] at h
        omega
    · right
      rw [show joinStep [] s = pyStrip s from by simp [joinStep, hs]]
      have h1 := foldl_joinStep_budget ss' (pyStrip s) hs
      have h2 : (pyStrip s).length ≤ s.length := length_pyStrip_le s
      rw [sentBudget_cons]
      omega

/-- Helper: the joined non-blank sentences of a split text are no longer
than the text. -/
theorem joinSentences_le (x : List Char) :
    (joinSentences (splitPunct x)).length ≤ x.length := by
  rcases joinSentences_budget (splitPunct x) with h | h
  · rw [h]; simp
  · have := splitPunct_budget x
    omega

/-- Helper: a scanner whose matches replace no more than they consume, and
consume no more than is available, never lengthens the text. -/
theorem scanSubF_length (m : List Char → Option (Nat × List Char))
    (hm : ∀ l k rep, m l = some (k, rep) → rep.length ≤ k ∧ k ≤ l.length) :
    ∀ (fuel : Nat) (l : List Char), (scanSubF m fuel l).length ≤ l.length := by
  intro fuel
  induction fuel with
  | zero => intro l; cases l <;> simp [scanSubF]
  | succ f ih =>
    intro l
    cases l with
    | nil => simp [scanSubF]
    | cons c rest =>
      cases hma : m (c :: rest) with
      | none =>
        simp only [scanSubF, hma]
        simpa using ih rest
      | some kr =>
        obtain ⟨k, rep⟩ := kr
        obtain ⟨h1, h2⟩ := hm _ _ _ hma
        by_cases hk : 1 ≤ k
        · simp only [scanSubF, hma, hk, if_true]
          rw [List.length_append]
          have h3 := ih ((c :: rest).drop k)
          rw [List.length_drop] at h3
          simp only [List.length_cons] at h2 h3 ⊢
          omega
        · simp only [scanSubF, hma, hk, if_false]
          simpa using ih rest

/-- Helper: the scanner over a whole text never lengthens it. -/
theorem scanSub_length (m : List Char → Option (Nat × List Char))
    (hm : ∀ l k rep, m l = some (k, rep) → rep.length ≤ k ∧ k ≤ l.length)
    (l : List Char) : (scanSub m l).length ≤ l.length :=
  scanSubF_length m hm l.length l

/-- Helper: a found occurrence lies inside the searched text. -/
theorem findSub_bound (pat : List Char) :
    ∀ (l : List Char) (i : Nat), findSub pat l = some i → i + pat.length ≤ l.length := by
  intro l
  induction l with
  | nil =>
    intro i h
    rw [findSub] at h
    split at h
    · rename_i hpre
      simp only [Option.some.injEq] at h
      subst h
      simpa using (List.isPrefixOf_iff_prefix.mp hpre).length_le
    · simp at h
  | cons c rest ih =>
    intro i h
    rw [findSub] at h
    split at h
    · rename_i hpre
      simp only [Option.some.injEq] at h
      subst h
      simpa using (List.isPrefixOf_iff_prefix.mp hpre).length_le
    · rw [Option.map_eq_some'] at h
      obtain ⟨j, hj, rfl⟩ := h
      have := ih j hj
      simp only [List.length_cons]
      omega

/-- Helper: literal replacement with a no-longer replacement never lengthens
the text. -/
theorem length_replaceAll_le (pat rep : List Char) (hle : rep.length ≤ pat.length)
    (l : List Char) : (replaceAll pat rep l).length ≤ l.length := by
  apply scanSub_length
  intro l' k r h
  split at h
  · rename_i hc
    simp only [Bool.and_eq_true] at hc
    simp only [Option.some.injEq, Prod.mk.injEq] at h
    obtain ⟨rfl, rfl⟩ := h
    refine ⟨hle, ?_⟩
    exact (List.isPrefixOf_iff_prefix.mp hc.1).length_le
  · simp at h

/-- Helper: a header match consumes at least as much as it replaces and no
more than is available. -/
theorem matchHeader_bound :
    ∀ (l : List Char) (k : Nat) (rep : List Char),
      matchHeader l = some (k, rep) → rep.length ≤ k ∧ k ≤ l.length := by
  intro l k rep h
  unfold matchHeader at h
  dsimp only at h
  split at h
  · split at h
    · simp only [Option.some.injEq, Prod.mk.injEq] at h
      obtain ⟨rfl, rfl⟩ := h
      refine ⟨by simp, ?_⟩
      have hm := length_takeWhile_le' (fun c => decide (c = '#')) l
      have hw' := length_takeWhile_le' pyWs
        (l.drop (l.takeWhile (fun c => decide (c = '#'))).length)
      rw [List.length_drop] at hw'
      omega
    · simp at h
  · simp at h

/-- Helper: a lazy delimited match consumes at least as much as it replaces
and no more than is available. -/
theorem matchDelim_bound (opener closer : List Char) :
    ∀ (l : List Char) (k : Nat) (rep : List Char),
      matchDelim opener closer l = some (k, rep) → rep.length ≤ k ∧ k ≤ l.length := by
  intro l k rep h
  unfold matchDelim at h
  dsimp only at h
  split at h
  · rename_i hpre
    cases hf : findSub closer (l.drop opener.length) with
    | none => rw [hf] at h; simp at h
    | some i =>
      rw [hf] at h
      dsimp only at h
      split at h
      · simp at h
      · simp only [Option.some.injEq, Prod.mk.injEq] at h
        obtain ⟨rfl, rfl⟩ := h
        have hfb := findSub_bound closer (l.drop opener.length) i hf
        rw [List.length_drop] at hfb
        have hop := (List.isPrefixOf_iff_prefix.mp hpre).length_le
        constructor
        · have := List.length_take i (l.drop opener.length)
          simp only [this]
          omega
        · omega
  · simp at h

/-- Helper: a markdown-link match consumes at least as much as it replaces
and no more than is available. -/
theorem matchLink_bound :
    ∀ (l : List Char) (k : Nat) (rep : List Char),
      matchLink l = some (k, rep) → rep.length ≤ k ∧ k ≤ l.length := by
  intro l k rep h
  cases l with
  | nil => simp [matchLink] at h
  | cons c rest =>
    unfold matchLink at h
    dsimp only at h
    split at h
    · split at h
      · rename_i hj
        simp only [Bool.and_eq_true, decide_eq_true_eq] at hj
        split at h
        · rename_i c2 rest2 hdrop
          split at h
          · split at h
            · rename_i hk
              simp only [Bool.and_eq_true, decide_eq_true_eq] at hk
              simp only [Option.some.injEq, Prod.mk.injEq] at h
              obtain ⟨rfl, rfl⟩ := h
              have hjlen : (rest.takeWhile (fun a => decide (a ≠ ']'))).length + 1 ≤
                  rest.length := by
                rcases Nat.lt_or_ge (rest.takeWhile (fun a => decide (a ≠ ']'))).length
                    rest.length with hlt | hge
                · omega
                · exact absurd (List.drop_eq_nil_of_le hge) hj.2
              have hrest2 : rest.length =
                  (rest.takeWhile (fun a => decide (a ≠ ']'))).length + 2 + rest2.length := by
                have := congrArg List.length hdrop
                rw [List.length_drop] at this
                simp only [List.length_cons] at this
                omega
              have hkklen : (rest2.takeWhile (fun a => decide (a ≠ ')'))).length + 1 ≤
                  rest2.length := by
                rcases Nat.lt_or_ge (rest2.takeWhile (fun a => decide (a ≠ ')'))).length
                    rest2.length with hlt | hge
                · omega
                · exact absurd (List.drop_eq_nil_of_le hge) hk.2
              constructor
              · have := List.length_take
                  (rest.takeWhile (fun a => decide (a ≠ ']'))).length rest
                simp only [this]
                omega
              · simp only [List.length_cons]
                omega
            · simp at h
          · simp at h
        · simp at h
      · simp at h
    · simp at h

/-- Helper: whitespace collapsing never lengthens the text. -/
theorem length_collapseWsAux_le :
    ∀ (l : List Char) (b : Bool), (collapseWsAux b l).length ≤ l.length := by
  intro l
  induction l with
  | nil => intro b; simp [collapseWsAux]
  | cons c rest ih =>
    intro b
    by_cases hw : pyWs c
    · cases b
      · simp only [collapseWsAux, hw, if_true, Bool.false_eq_true, if_false]
        simpa using ih true
      · simp only [collapseWsAux, hw, if_true]
        have := ih true
        simp only [List.length_cons]
        omega
    · simp only [collapseWsAux, hw, Bool.false_eq_true, if_false]
      simpa using ih false

/-- Helper: cleaning never lengthens the text. -/
theorem length_clean_text_le (t : List Char) :
    (FloxEmbeddingService.clean_text t).length ≤ t.length := by
  unfold FloxEmbeddingService.clean_text
  split
  · simp
  · refine le_trans (length_pyStrip_le _) ?_
    refine le_trans (scanSub_length matchLink matchLink_bound _) ?_
    refine le_trans (scanSub_length _ (matchDelim_bound [Char.ofNat 96] [Char.ofNat 96]) _) ?_
    refine le_trans (scanSub_length _ (matchDelim_bound ['*'] ['*']) _) ?_
    refine le_trans (scanSub_length _ (matchDelim_bound ['*', '*'] ['*', '*']) _) ?_
    refine le_trans (scanSub_length matchHeader matchHeader_bound _) ?_
    refine le_trans (length_replaceAll_le _ _ (by decide) _) ?_
    refine le_trans (length_replaceAll_le _ _ (by decide) _) ?_
    refine le_trans (length_replaceAll_le _ _ (by decide) _) ?_
    refine le_trans (length_replaceAll_le _ _ (by decide) _) ?_
    refine le_trans (length_replaceAll_le _ _ (by decide) _) ?_
    exact length_collapseWsAux_le t false

/-- Helper: when the join of the remaining sentences onto the running chunk
fits within `max_size`, the accumulation loop never closes a chunk and emits
exactly that join (or nothing when it is empty). -/
theorem chunk_text_loop_no_split (max_size overlap : Nat) :
    ∀ (ss : List (List Char)) (chunks : List (List Char)) (cur : List Char),
      noEdgeWs cur →
      (List.foldl joinStep cur ss).length ≤ max_size →
      FloxEmbeddingService.chunk_text_loop max_size overlap ss chunks cur =
        chunks ++ (if List.foldl joinStep cur ss = [] then []
                   else [List.foldl joinStep cur ss]) := by
  intro ss
  induction ss with
  | nil =>
    intro chunks cur hcur _
    simp only [FloxEmbeddingService.chunk_text_loop, List.foldl_nil]
    rw [pyStrip_eq_self cur hcur]
    by_cases hc : cur = []
    · subst hc; simp
    · simp [hc]
  | cons s rest ih =>
    intro chunks cur hcur hlen
    rw [List.foldl_cons] at hlen ⊢
    by_cases hs : pyStrip s = []
    · rw [show joinStep cur s = cur from by simp [joinStep, hs]] at hlen ⊢
      simp only [FloxEmbeddingService.chunk_text_loop]
      rw [if_pos hs]
      exact ih chunks cur hcur hlen
    · by_cases hc : cur = []
      · subst hc
        rw [show joinStep [] s = pyStrip s from by simp [joinStep, hs]] at hlen ⊢
        simp only [FloxEmbeddingService.chunk_text_loop]
        rw [if_neg hs, if_neg (by rintro ⟨-, h2⟩; exact h2 rfl), if_true]
        exact ih chunks (pyStrip s) (noEdgeWs_pyStrip s) hlen
      · rw [show joinStep cur s = cur ++ ' ' :: pyStrip s from by
            simp [joinStep, hs, hc]] at hlen ⊢
        have hge := (foldl_joinStep_ge rest (cur ++ ' ' :: pyStrip s) (by simp)).1
        have hle : cur.length + (pyStrip s).length + 1 ≤ max_size := by
          simp only [List.length_append, List.length_cons] at hge
          omega
        simp only [FloxEmbeddingService.chunk_text_loop]
        rw [if_neg hs, if_neg (by rintro ⟨h1, -⟩; omega), if_neg hc]
        exact ih chunks (cur ++ ' ' :: pyStrip s)
          (noEdgeWs_append cur (pyStrip s) hcur hc (noEdgeWs_pyStrip s) hs) hlen

/-- Counterexample for C4: `"Hi."` has length at most `max_size`, and
`chunk_text` returns exactly one chunk — but the chunk is `"Hi"`, not the
cleaned text `"Hi."` (the sentence split discards `.`, `!`, `?`); moreover
the whitespace-only text `" "` yields no chunk at all rather than one. -/
theorem chunk_not_normalized :
    "Hi.".data.length ≤ FloxEmbeddingService.max_chunk_size ∧
      FloxEmbeddingService.chunk_text "Hi.".data FloxEmbeddingService.max_chunk_size =
        ["Hi".data] ∧
      FloxEmbeddingService.clean_text "Hi.".data = "Hi.".data ∧
      ("Hi".data : List Char) ≠ "Hi.".data ∧
      FloxEmbeddingService.chunk_text " ".data FloxEmbeddingService.max_chunk_size = [] := by
  refine ⟨by decide, by decide, by decide, by decide, by decide⟩

/-- Claim C4 as amended: for every text `T` of length at most `max_size`,
`chunk_text(T, max_size)` returns at most one chunk — exactly one, equal to
the single-space join of the non-blank stripped `[.!?]`-split sentences of
the cleaned text, when such a sentence exists, and no chunk otherwise. -/
theorem chunk_text_single (t : List Char) (max_size : Nat)
    (h : t.length ≤ max_size) :
    FloxEmbeddingService.chunk_text t max_size =
      (if joinSentences (splitPunct (FloxEmbeddingService.clean_text t)) = [] then []
       else [joinSentences (splitPunct (FloxEmbeddingService.clean_text t))]) := by
  have hlen : (joinSentences (splitPunct (FloxEmbeddingService.clean_text t))).length ≤
      max_size :=
    le_trans (joinSentences_le _) (le_trans (length_clean_text_le t) h)
  unfold FloxEmbeddingService.chunk_text
  rw [chunk_text_loop_no_split max_size FloxEmbeddingService.chunk_overlap
    (splitPunct (FloxEmbeddingService.clean_text t)) [] [] noEdgeWs_nil
    (by rw [show List.foldl joinStep [] (splitPunct (FloxEmbeddingService.clean_text t)) =
        joinSentences (splitPunct (FloxEmbeddingService.clean_text t)) from rfl]
        exact hlen)]
  rw [show List.foldl joinStep [] (splitPunct (FloxEmbeddingService.clean_text t)) =
    joinSentences (splitPunct (FloxEmbeddingService.clean_text t)) from rfl]
  simp

/-- Witness for C4 at the three-character text `"Hi."`. -/
theorem chunk_text_single_witness :
    "Hi.".data.length ≤ 500 ∧
      FloxEmbeddingService.chunk_text "Hi.".data 500 =
        (if joinSentences (splitPunct (FloxEmbeddingService.clean_text "Hi.".data)) = []
         then []
         else [joinSentences (splitPunct (FloxEmbeddingService.clean_text "Hi.".data))]) :=
  ⟨by decide, chunk_text_single "Hi.".data 500 (by decide)⟩

end Floxai

